import Mathlib

/-!
Shallow embedding of the go-filterchain library (src/lib.go): the Store
key/value container, serial and parallel stages over embedded filter
programs, and the chain cursor/continuation protocol (Execute / Next).

Modelling choices, fixed once for the whole development:
* Concurrency inside a parallel stage is serialised in branch (list)
  order, one admissible schedule of the errgroup semantics; errgroup's
  Wait returning the first observed error is modelled by keeping the
  first error in that order, and every launched branch runs to
  completion regardless of earlier failures, exactly as errgroup does.
* The store parameter that Go threads unchanged through every
  Execute/Next/filter call is carried inside the chain state record.
* A Go runtime panic (the out-of-range slice index in Next) is the
  distinguished result `Res.crash`; the interpreter is fuelled, and fuel
  exhaustion is the result `Res.out`, which no claim depends on.
* The `Ctx` field of Chain is carried only to be handed to filters and is
  never consulted by the chain logic, so it is omitted.
-/

namespace FilterChain

/-- Errors returned by filters: Go error values, identified by message
(`none` is Go's nil error). -/
abbrev Err := String

/-- Values held in the store: a concrete instantiation of Go's untyped
interface values, enough for the claims' examples. -/
inductive Val where
  | nat : Nat → Val
  | str : String → Val
deriving DecidableEq, Repr

/-- Store manages data for a filterchain: the map guarded by the RWMutex
in Go, with unique keys. Locking is a no-op in this sequential model. -/
structure Store (α : Type) where
  data : List (String × α)
deriving DecidableEq, Repr

/-- Put adds a key/value pair to the store: an unconditional upsert, keys
staying unique as in a Go map. -/
def Store.Put {α : Type} (s : Store α) (key : String) (value : α) : Store α :=
  ⟨(key, value) :: s.data.filter (fun p => p.1 != key)⟩

/-- Get fetches the value for the given key: `some v` models Go's
`(v, true)` and `none` models `(zeroValue, false)`. -/
def Store.Get {α : Type} (s : Store α) (key : String) : Option α :=
  (s.data.find? (fun p => p.1 == key)).map Prod.snd

/-- Effects a filter body may perform on the shared state besides
returning or continuing the chain: a store Put, or the shared-counter
increment used by the library's parallel-stage test filters. -/
inductive Act where
  | put : String → Val → Act
  | incr : String → Act
deriving DecidableEq, Repr

/-- Embedded filter bodies (the opaque Executer callables): perform
actions, then either return an error value (`ret none` is `return nil`)
or end with `return chain.Next(store)`. -/
inductive Prog where
  | ret : Option Err → Prog
  | act : Act → Prog → Prog
  | next : Prog
deriving DecidableEq, Repr

/-- Stages held by a chain: `serial` is serialFilter wrapping one filter;
`parallel` is parallelFilter carrying its mutable done flag and its
filters. -/
inductive Stage where
  | serial : Prog → Stage
  | parallel : Bool → List Prog → Stage
deriving DecidableEq, Repr

/-- Chain state threaded through every call: the cursor `pos`, the stage
list `filters` (each parallelFilter's done flag kept inline, since in Go
the chain's slice aliases the stage object that Execute mutates), and the
shared store. -/
structure ChainSt where
  pos : Nat
  filters : List Stage
  store : Store Val
deriving DecidableEq, Repr

/-- Interpretation of one filter action on the chain state. The `incr`
case reads the current counter (0 when absent) and writes back its
successor, as the test filters do with their shared atomic counter. -/
def Act.apply : Act → ChainSt → ChainSt
  | .put k v, st => { st with store := st.store.Put k v }
  | .incr k, st =>
    { st with store := st.store.Put k (.nat ((match st.store.Get k with
        | some (.nat m) => m
        | _ => 0) + 1)) }

/-- Setting a parallelFilter's done flag (`pf.done = true`); a serial
stage is left unchanged. -/
def Stage.mark : Stage → Stage
  | .parallel _ ps => .parallel true ps
  | s => s

/-- Mark the stage at position `idx` of a stage list as done. -/
def markAt : List Stage → Nat → List Stage
  | [], _ => []
  | s :: rest, 0 => s.mark :: rest
  | s :: rest, n + 1 => s :: markAt rest n

/-- The state after `pf.done = true` for the stage at `idx`. -/
def ChainSt.setDone (st : ChainSt) (idx : Nat) : ChainSt :=
  { st with filters := markAt st.filters idx }

/-- Outcomes of a fuelled run: `crash` is a Go runtime panic
(out-of-range index), `out` is fuel exhaustion, `ok e st` is a normal
return with error value `e` and post-state `st`. -/
inductive Res where
  | crash : Res
  | out : Res
  | ok : Option Err → ChainSt → Res
deriving DecidableEq, Repr

mutual

/-- Run of one filter body (the callable invoked by serialFilter.Execute
or by one errgroup task of parallelFilter.Execute). -/
def Prog.Execute : Nat → Prog → ChainSt → Res
  | 0, _, _ => .out
  | _ + 1, .ret e, st => .ok e st
  | fuel + 1, .act a p, st => Prog.Execute fuel p (a.apply st)
  | fuel + 1, .next, st => ChainSt.Next fuel st

/-- The errgroup loop of parallelFilter.Execute, serialised in list
order: every branch runs to completion, and the first error observed is
the one kept (g.Wait's result). -/
def Prog.ExecuteAll : Nat → List Prog → ChainSt → Res
  | 0, _, _ => .out
  | _ + 1, [], st => .ok none st
  | fuel + 1, p :: rest, st =>
    match Prog.Execute fuel p st with
    | .ok e st' =>
      match Prog.ExecuteAll fuel rest st' with
      | .ok e' st'' => .ok (e.orElse (fun _ => e')) st''
      | r => r
    | r => r

/-- serialFilter.Execute and parallelFilter.Execute. The stage's own
position `idx` identifies the stage object whose done flag
`pf.done = true` mutates. -/
def Stage.Execute : Nat → Stage → Nat → ChainSt → Res
  | 0, _, _, _ => .out
  | fuel + 1, .serial p, _, st =>
    match Prog.Execute fuel p st with
    | .ok (some e) st' => .ok (some e) st'
    | r => r
  | fuel + 1, .parallel _ ps, idx, st =>
    match Prog.ExecuteAll fuel ps st with
    | .ok (some e) st' => .ok (some e) st'
    | .ok none st' => ChainSt.Next fuel (st'.setDone idx)
    | r => r

/-- Chain.Execute: when the cursor is in range, increment it, then run
the stage at the pre-increment position and propagate its error. -/
def ChainSt.Execute : Nat → ChainSt → Res
  | 0, _ => .out
  | fuel + 1, st =>
    match st.filters.get? st.pos with
    | some stg =>
      match Stage.Execute fuel stg st.pos { st with pos := st.pos + 1 } with
      | .ok (some e) st' => .ok (some e) st'
      | r => r
    | none => .ok none st

/-- Chain.Next: inspect the stage at `chain.pos - 1`; the slice index
panics (crash) when `pos - 1` is out of range, in particular when the
cursor is 0 and Go computes index -1. -/
def ChainSt.Next : Nat → ChainSt → Res
  | 0, _ => .out
  | fuel + 1, st =>
    if 1 ≤ st.pos then
      match st.filters.get? (st.pos - 1) with
      | some (.parallel done _) =>
        if done then ChainSt.Execute fuel st else .ok none st
      | some (.serial _) => ChainSt.Execute fuel st
      | none => .crash
    else .crash

end

/-- New creates a fresh chain and its paired empty store (the context
argument is only stored, never consulted, and is omitted here). -/
def New : ChainSt := ⟨0, [], ⟨[]⟩⟩

/-- Chain.AddFilters: append each filter as its own serialFilter stage,
in order, mirroring the Go loop. -/
def ChainSt.AddFilters : ChainSt → List Prog → ChainSt
  | chain, [] => chain
  | chain, f :: fs =>
    ChainSt.AddFilters { chain with filters := chain.filters ++ [.serial f] } fs

/-- Chain.AddParallelFilters: zero filters is a no-op, one filter
degrades to AddFilters, two or more append one parallelFilter with done
initially false. -/
def ChainSt.AddParallelFilters (chain : ChainSt) (fs : List Prog) : ChainSt :=
  match fs with
  | [] => chain
  | [f] => chain.AddFilters [f]
  | fs => { chain with filters := chain.filters ++ [.parallel false fs] }

/-- Filter used by the library's parallel test: increment the shared
counter, then `return chain.Next(store)`. -/
def incrNext : Prog := .act (.incr "counter") .next

/-- Chain holding one parallel stage of three counter filters. -/
def exPar : ChainSt := ⟨0, [.parallel false [incrNext, incrNext, incrNext]], ⟨[]⟩⟩

/-- Final state of a run of `exPar`: counter 3, done flag true. -/
def exParFinal : ChainSt :=
  ⟨1, [.parallel true [incrNext, incrNext, incrNext]], ⟨[("counter", .nat 3)]⟩⟩

/-- Marker filter for the stage after a parallel group: increment the
"advanced" counter, then return nil. -/
def markerProg : Prog := .act (.incr "advanced") (.ret none)

/-- Chain holding a parallel group followed by a serial marker stage. -/
def exPar2 : ChainSt :=
  ⟨0, [.parallel false [incrNext, incrNext, incrNext], .serial markerProg], ⟨[]⟩⟩

/-- Final state of a run of `exPar2`: the marker stage ran exactly once. -/
def exPar2Final : ChainSt :=
  ⟨2, [.parallel true [incrNext, incrNext, incrNext], .serial markerProg],
   ⟨[("advanced", .nat 1), ("counter", .nat 3)]⟩⟩

/-- Parallel branch that records a marker and requests continuation. -/
def branchOk1 : Prog := .act (.put "b1" (.nat 1)) .next

/-- Parallel branch that fails. -/
def branchErr : Prog := .ret (some "filter execution failed")

/-- Parallel branch that records a marker and requests continuation. -/
def branchOk3 : Prog := .act (.put "b3" (.nat 1)) .next

/-- Chain mid-run on a parallel group whose second branch fails, as in
the library's error test (cursor already advanced past the group). -/
def exErr : ChainSt := ⟨1, [.parallel false [branchOk1, branchErr, branchOk3]], ⟨[]⟩⟩

/-- State after all three branches of `exErr` ran: both surviving
branches left their markers, the flag is untouched. -/
def exErrFinal : ChainSt :=
  ⟨1, [.parallel false [branchOk1, branchErr, branchOk3]],
   ⟨[("b3", .nat 1), ("b1", .nat 1)]⟩⟩

/-- Chain mid-run on an incomplete parallel group (cursor already past
it, done flag still false): the state a branch sees when it calls Next. -/
def exNoOp : ChainSt := ⟨1, [.parallel false [.ret none]], ⟨[]⟩⟩

/-- Chain mid-run whose previous stage is serial. -/
def exSerial1 : ChainSt := ⟨1, [.serial (.ret none)], ⟨[]⟩⟩

/-- Freshly started chain (cursor 0) holding one stage: calling Next here
is the out-of-bounds case. -/
def exFresh0 : ChainSt := ⟨0, [.serial (.ret none)], ⟨[]⟩⟩

/-- The state of `exPar` right after Chain.Execute advanced the cursor,
as seen by the parallel stage's own Execute. -/
def exParMid : ChainSt := ⟨1, [.parallel false [incrNext, incrNext, incrNext]], ⟨[]⟩⟩

/-- The state of `exParMid` after all three branches ran: counter 3, flag
still false (the join has not flipped it yet). -/
def exParBranches : ChainSt :=
  ⟨1, [.parallel false [incrNext, incrNext, incrNext]], ⟨[("counter", .nat 3)]⟩⟩

/-- The state after only the failing branch and the last branch of
`exErr` ran. -/
def exErrTail : ChainSt :=
  ⟨1, [.parallel false [branchOk1, branchErr, branchOk3]], ⟨[("b3", .nat 1)]⟩⟩

/-- Evolution order on one stage: unchanged, or a parallelFilter whose
done flag flipped from false to true (the only mutation stages admit). -/
def StageLe (a b : Stage) : Prop :=
  a = b ∨ ∃ ps, a = .parallel false ps ∧ b = .parallel true ps

/-- Evolution of the chain state across any interpreter call: stages only
flip done flags, the cursor is monotone and stays bounded, and stages
strictly below the starting cursor are untouched. -/
def Evolve (s t : ChainSt) : Prop :=
  List.Forall₂ StageLe s.filters t.filters ∧
  s.pos ≤ t.pos ∧
  (s.pos ≤ s.filters.length → t.pos ≤ t.filters.length) ∧
  ∀ j, j < s.pos → t.filters.get? j = s.filters.get? j

/-- Evolution across a stage's own Execute: as `Evolve`, except that the
stage may set its own done flag at its index `idx` below the cursor. -/
def EvolveAt (idx : Nat) (s t : ChainSt) : Prop :=
  List.Forall₂ StageLe s.filters t.filters ∧
  s.pos ≤ t.pos ∧
  (s.pos ≤ s.filters.length → t.pos ≤ t.filters.length) ∧
  ∀ j, j < s.pos → j ≠ idx → t.filters.get? j = s.filters.get? j

theorem stageLe_refl (a : Stage) : StageLe a a := Or.inl rfl

theorem stageLe_trans {a b c : Stage} (h₁ : StageLe a b) (h₂ : StageLe b c) :
    StageLe a c := by
  rcases h₁ with rfl | ⟨ps, rfl, rfl⟩
  · exact h₂
  · rcases h₂ with rfl | ⟨qs, hq, _⟩
    · exact Or.inr ⟨ps, rfl, rfl⟩
    · cases hq

theorem stageLe_mark (a : Stage) : StageLe a a.mark := by
  cases a with
  | serial p => exact Or.inl rfl
  | parallel d ps =>
    cases d
    · exact Or.inr ⟨ps, rfl, rfl⟩
    · exact Or.inl rfl

theorem forall₂_stageLe_refl : ∀ l : List Stage, List.Forall₂ StageLe l l
  | [] => .nil
  | s :: rest => .cons (stageLe_refl s) (forall₂_stageLe_refl rest)

theorem forall₂_stageLe_trans :
    ∀ {l₁ l₂ l₃ : List Stage}, List.Forall₂ StageLe l₁ l₂ →
      List.Forall₂ StageLe l₂ l₃ → List.Forall₂ StageLe l₁ l₃ := by
  intro l₁ l₂ l₃ h₁
  induction h₁ generalizing l₃ with
  | nil => intro h₂; cases h₂; exact .nil
  | cons hab _ ih =>
    intro h₂
    cases h₂ with
    | cons hbc h₂' => exact .cons (stageLe_trans hab hbc) (ih h₂')

theorem forall₂_get?_left {l₁ l₂ : List Stage} (h : List.Forall₂ StageLe l₁ l₂) :
    ∀ {j a}, l₁.get? j = some a → ∃ b, l₂.get? j = some b ∧ StageLe a b := by
  induction h with
  | nil => intro j a hj; cases hj
  | cons hab _ ih =>
    intro j a hj
    cases j with
    | zero => exact ⟨_, rfl, by cases hj; exact hab⟩
    | succ j => exact ih hj

theorem forall₂_get?_right {l₁ l₂ : List Stage} (h : List.Forall₂ StageLe l₁ l₂) :
    ∀ {j b}, l₂.get? j = some b → ∃ a, l₁.get? j = some a ∧ StageLe a b := by
  induction h with
  | nil => intro j b hj; cases hj
  | cons hab _ ih =>
    intro j b hj
    cases j with
    | zero => exact ⟨_, rfl, by cases hj; exact hab⟩
    | succ j => exact ih hj

theorem evolve_refl (s : ChainSt) : Evolve s s :=
  ⟨forall₂_stageLe_refl _, le_refl _, fun h => h, fun _ _ => rfl⟩

theorem evolve_of_eq {s t : ChainSt} (hf : s.filters = t.filters)
    (hp : s.pos = t.pos) : Evolve s t := by
  refine ⟨?_, ?_, ?_, ?_⟩
  · rw [hf]; exact forall₂_stageLe_refl _
  · rw [hp]
  · rw [hf, hp]; exact fun h => h
  · intro j _; rw [hf]

theorem evolve_trans {s t u : ChainSt} (h₁ : Evolve s t) (h₂ : Evolve t u) :
    Evolve s u := by
  obtain ⟨f₁, p₁, b₁, g₁⟩ := h₁
  obtain ⟨f₂, p₂, b₂, g₂⟩ := h₂
  refine ⟨forall₂_stageLe_trans f₁ f₂, le_trans p₁ p₂, fun h => b₂ (b₁ h), ?_⟩
  intro j hj
  rw [g₂ j (lt_of_lt_of_le hj p₁), g₁ j hj]

theorem evolve_evolveAt (idx : Nat) {s t : ChainSt} (h : Evolve s t) :
    EvolveAt idx s t :=
  ⟨h.1, h.2.1, h.2.2.1, fun j hj _ => h.2.2.2 j hj⟩

theorem evolveAt_trans {idx : Nat} {s t u : ChainSt} (h₁ : EvolveAt idx s t)
    (h₂ : EvolveAt idx t u) : EvolveAt idx s u := by
  obtain ⟨f₁, p₁, b₁, g₁⟩ := h₁
  obtain ⟨f₂, p₂, b₂, g₂⟩ := h₂
  refine ⟨forall₂_stageLe_trans f₁ f₂, le_trans p₁ p₂, fun h => b₂ (b₁ h), ?_⟩
  intro j hj hne
  rw [g₂ j (lt_of_lt_of_le hj p₁) hne, g₁ j hj hne]

theorem markAt_length : ∀ (l : List Stage) (i : Nat), (markAt l i).length = l.length
  | [], _ => rfl
  | _ :: _, 0 => rfl
  | _ :: rest, n + 1 => congrArg Nat.succ (markAt_length rest n)

theorem markAt_get?_ne :
    ∀ (l : List Stage) {i j : Nat}, j ≠ i → (markAt l i).get? j = l.get? j
  | [], _, _, _ => rfl
  | _ :: _, 0, 0, h => absurd rfl h
  | _ :: _, 0, _ + 1, _ => rfl
  | _ :: _, _ + 1, 0, _ => rfl
  | _ :: rest, _ + 1, _ + 1, h =>
    markAt_get?_ne rest (fun hji => h (congrArg Nat.succ hji))

theorem forall₂_markAt : ∀ (l : List Stage) (i : Nat), List.Forall₂ StageLe l (markAt l i)
  | [], _ => .nil
  | s :: rest, 0 => .cons (stageLe_mark s) (forall₂_stageLe_refl rest)
  | s :: rest, i + 1 => .cons (stageLe_refl s) (forall₂_markAt rest i)

theorem apply_pos (a : Act) (st : ChainSt) : (a.apply st).pos = st.pos := by
  cases a <;> rfl

theorem apply_filters (a : Act) (st : ChainSt) : (a.apply st).filters = st.filters := by
  cases a <;> rfl

theorem setDone_pos (st : ChainSt) (idx : Nat) : (st.setDone idx).pos = st.pos := rfl

theorem setDone_length (st : ChainSt) (idx : Nat) :
    (st.setDone idx).filters.length = st.filters.length := markAt_length _ _

theorem evolveAt_setDone (st : ChainSt) (idx : Nat) : EvolveAt idx st (st.setDone idx) := by
  refine ⟨forall₂_markAt _ _, le_refl _, ?_, ?_⟩
  · rw [setDone_pos, setDone_length]; exact fun h => h
  · intro j _ hne; exact markAt_get?_ne _ hne

theorem evolve_applyAct (a : Act) (st : ChainSt) : Evolve st (a.apply st) :=
  evolve_of_eq (apply_filters a st).symm (apply_pos a st).symm

theorem evolve_of_stage_run {st st' : ChainSt} (hlt : st.pos < st.filters.length)
    (h : EvolveAt st.pos { st with pos := st.pos + 1 } st') : Evolve st st' := by
  obtain ⟨hF, hpos, hbound, hget⟩ := h
  refine ⟨hF, le_trans (Nat.le_succ _) hpos, fun _ => hbound hlt, ?_⟩
  intro j hj
  exact hget j (Nat.lt_succ_of_lt hj) (Nat.ne_of_lt hj)

theorem evolve_main : ∀ fuel : Nat,
    (∀ p st e st', Prog.Execute fuel p st = .ok e st' → Evolve st st') ∧
    (∀ ps st e st', Prog.ExecuteAll fuel ps st = .ok e st' → Evolve st st') ∧
    (∀ stg idx st e st', Stage.Execute fuel stg idx st = .ok e st' → EvolveAt idx st st') ∧
    (∀ st e st', ChainSt.Execute fuel st = .ok e st' → Evolve st st') ∧
    (∀ st e st', ChainSt.Next fuel st = .ok e st' → Evolve st st') := by
  intro fuel
  induction fuel with
  | zero =>
    refine ⟨fun p st e st' h => ?_, fun ps st e st' h => ?_,
      fun stg idx st e st' h => ?_, fun st e st' h => ?_, fun st e st' h => ?_⟩ <;>
    · simp only [Prog.Execute, Prog.ExecuteAll, Stage.Execute,
        ChainSt.Execute, ChainSt.Next] at h
      exact Res.noConfusion h
  | succ f ih =>
    obtain ⟨ihP, ihPs, ihStage, ihExec, ihNext⟩ := ih
    refine ⟨?_, ?_, ?_, ?_, ?_⟩
    · intro p st e st' h
      cases p with
      | ret e0 =>
        simp only [Prog.Execute, Res.ok.injEq] at h
        obtain ⟨rfl, rfl⟩ := h
        exact evolve_refl st
      | act a p =>
        simp only [Prog.Execute] at h
        exact evolve_trans (evolve_applyAct a st) (ihP _ _ _ _ h)
      | next =>
        simp only [Prog.Execute] at h
        exact ihNext _ _ _ h
    · intro ps st e st' h
      cases ps with
      | nil =>
        simp only [Prog.ExecuteAll, Res.ok.injEq] at h
        obtain ⟨rfl, rfl⟩ := h
        exact evolve_refl st
      | cons p rest =>
        simp only [Prog.ExecuteAll] at h
        split at h
        · rename_i e₁ st₁ heq₁
          split at h
          · rename_i e₂ st₂ heq₂
            obtain ⟨rfl, rfl⟩ := Res.ok.inj h
            exact evolve_trans (ihP _ _ _ _ heq₁) (ihPs _ _ _ _ heq₂)
          · rename_i hsc hne
            exact ((hne e st' h).elim : Evolve st st')
        · rename_i hsc hne
          exact ((hne e st' h).elim : Evolve st st')
    · intro stg idx st e st' h
      cases stg with
      | serial p =>
        simp only [Stage.Execute] at h
        split at h
        · rename_i e₁ st₁ heq₁
          obtain ⟨rfl, rfl⟩ := Res.ok.inj h
          exact evolve_evolveAt idx (ihP _ _ _ _ heq₁)
        · rename_i hsc hne
          cases e with
          | some e₁ => exact ((hne e₁ st' h).elim : EvolveAt idx st st')
          | none => exact evolve_evolveAt idx (ihP _ _ _ _ h)
      | parallel d ps =>
        simp only [Stage.Execute] at h
        split at h
        · rename_i e₁ st₁ heq₁
          obtain ⟨rfl, rfl⟩ := Res.ok.inj h
          exact evolve_evolveAt idx (ihPs _ _ _ _ heq₁)
        · rename_i st₁ heq₁
          exact evolveAt_trans (evolve_evolveAt idx (ihPs _ _ _ _ heq₁))
            (evolveAt_trans (evolveAt_setDone st₁ idx)
              (evolve_evolveAt idx (ihNext _ _ _ h)))
        · rename_i hsc hne₁ hne₂
          cases e with
          | some e₁ => exact ((hne₁ e₁ st' h).elim : EvolveAt idx st st')
          | none => exact ((hne₂ st' h).elim : EvolveAt idx st st')
    · intro st e st' h
      simp only [ChainSt.Execute] at h
      split at h
      · rename_i stg hget
        have hlt : st.pos < st.filters.length := by
          rcases List.get?_eq_some.mp hget with ⟨hl, _⟩
          exact hl
        split at h
        · rename_i e₁ st₁ heq₁
          obtain ⟨rfl, rfl⟩ := Res.ok.inj h
          exact evolve_of_stage_run hlt (ihStage _ _ _ _ _ heq₁)
        · rename_i hsc hne
          cases e with
          | some e₁ => exact ((hne e₁ st' h).elim : Evolve st st')
          | none => exact evolve_of_stage_run hlt (ihStage _ _ _ _ _ h)
      · obtain ⟨rfl, rfl⟩ := Res.ok.inj h
        exact evolve_refl st
    · intro st e st' h
      simp only [ChainSt.Next] at h
      split at h
      · split at h
        · rename_i done ps hget
          split at h
          · exact ihExec _ _ _ h
          · obtain ⟨rfl, rfl⟩ := Res.ok.inj h
            exact evolve_refl st
        · exact ihExec _ _ _ h
        · cases h
      · cases h

theorem nopanic_main : ∀ fuel : Nat,
    (∀ p st, 1 ≤ st.pos → st.pos ≤ st.filters.length → Prog.Execute fuel p st ≠ .crash) ∧
    (∀ ps st, 1 ≤ st.pos → st.pos ≤ st.filters.length → Prog.ExecuteAll fuel ps st ≠ .crash) ∧
    (∀ stg idx st, 1 ≤ st.pos → st.pos ≤ st.filters.length →
      Stage.Execute fuel stg idx st ≠ .crash) ∧
    (∀ st, ChainSt.Execute fuel st ≠ .crash) ∧
    (∀ st, 1 ≤ st.pos → st.pos ≤ st.filters.length → ChainSt.Next fuel st ≠ .crash) := by
  intro fuel
  induction fuel with
  | zero =>
    refine ⟨fun p st h1 h2 h => ?_, fun ps st h1 h2 h => ?_, fun stg idx st h1 h2 h => ?_,
      fun st h => ?_, fun st h1 h2 h => ?_⟩ <;>
    · simp only [Prog.Execute, Prog.ExecuteAll, Stage.Execute,
        ChainSt.Execute, ChainSt.Next] at h
      exact Res.noConfusion h
  | succ f ih =>
    obtain ⟨ihP, ihPs, ihStage, ihExec, ihNext⟩ := ih
    refine ⟨?_, ?_, ?_, ?_, ?_⟩
    · intro p st h1 h2
      cases p with
      | ret e0 => simp only [Prog.Execute]; exact fun h => Res.noConfusion h
      | act a p =>
        simp only [Prog.Execute]
        exact ihP p (a.apply st) (by rw [apply_pos]; exact h1)
          (by rw [apply_pos, apply_filters]; exact h2)
      | next => simp only [Prog.Execute]; exact ihNext st h1 h2
    · intro ps st h1 h2
      cases ps with
      | nil => simp only [Prog.ExecuteAll]; exact fun h => Res.noConfusion h
      | cons p rest =>
        simp only [Prog.ExecuteAll]
        split
        · rename_i e₁ st₁ heq₁
          have hev := (evolve_main f).1 p st e₁ st₁ heq₁
          have h1' : 1 ≤ st₁.pos := le_trans h1 hev.2.1
          have h2' : st₁.pos ≤ st₁.filters.length := hev.2.2.1 h2
          split
          · exact fun h => Res.noConfusion h
          · exact ihPs rest st₁ h1' h2'
        · exact ihP p st h1 h2
    · intro stg idx st h1 h2
      cases stg with
      | serial p =>
        simp only [Stage.Execute]
        split
        · exact fun h => Res.noConfusion h
        · exact ihP p st h1 h2
      | parallel d ps =>
        simp only [Stage.Execute]
        split
        · exact fun h => Res.noConfusion h
        · rename_i st₁ heq₁
          have hev := (evolve_main f).2.1 ps st none st₁ heq₁
          refine ihNext (st₁.setDone idx) ?_ ?_
          · rw [setDone_pos]; exact le_trans h1 hev.2.1
          · rw [setDone_pos, setDone_length]; exact hev.2.2.1 h2
        · exact ihPs ps st h1 h2
    · intro st
      simp only [ChainSt.Execute]
      split
      · rename_i stg hget
        have hlt : st.pos < st.filters.length := by
          rcases List.get?_eq_some.mp hget with ⟨hl, _⟩
          exact hl
        split
        · exact fun h => Res.noConfusion h
        · exact ihStage stg st.pos { st with pos := st.pos + 1 }
            (Nat.succ_le_succ (Nat.zero_le _)) (Nat.succ_le_of_lt hlt)
      · exact fun h => Res.noConfusion h
    · intro st h1 h2
      have hlt : st.pos - 1 < st.filters.length :=
        lt_of_lt_of_le (Nat.sub_lt h1 Nat.one_pos) h2
      obtain ⟨stg, hstg⟩ : ∃ stg, st.filters.get? (st.pos - 1) = some stg :=
        ⟨_, List.get?_eq_get hlt⟩
      cases stg with
      | parallel done ps =>
        simp only [ChainSt.Next, hstg, if_pos h1]
        cases done with
        | false => simp only [Bool.false_eq_true, if_false]; exact fun h => Res.noConfusion h
        | true => simp only [if_true]; exact ihExec st
      | serial p =>
        simp only [ChainSt.Next, hstg, if_pos h1]
        exact ihExec st

/-- C1: for every chain holding at least one stage and with cursor at
least 1, Chain.Next inspects the stage at position cursor - 1: if it is a
parallelFilter whose done flag is still false, Next returns success
without changing the state at all (a no-op); otherwise Next behaves
exactly as Chain.Execute, delegating to it with the rest of the fuel. -/
theorem next_inspects_previous_stage (fuel : Nat) (st : ChainSt) (stg : Stage)
    (h1 : 1 ≤ st.pos) (hget : st.filters.get? (st.pos - 1) = some stg) :
    ((∃ ps, stg = .parallel false ps) → ChainSt.Next (fuel + 1) st = .ok none st) ∧
    ((∀ ps, stg ≠ .parallel false ps) →
      ChainSt.Next (fuel + 1) st = ChainSt.Execute fuel st) := by
  constructor
  · rintro ⟨ps, rfl⟩
    simp only [ChainSt.Next, hget, if_pos h1, Bool.false_eq_true, if_false]
  · intro hne
    cases stg with
    | serial p => simp only [ChainSt.Next, hget, if_pos h1]
    | parallel done ps =>
      cases done with
      | false => exact absurd rfl (hne ps)
      | true => simp only [ChainSt.Next, hget, if_pos h1, if_true]

/-- C1 witness: Next is a no-op on an incomplete parallel stage and
delegates to Execute after a serial stage. -/
theorem next_inspects_previous_stage_witness :
    ChainSt.Next 6 exNoOp = .ok none exNoOp ∧
    ChainSt.Next 6 exSerial1 = ChainSt.Execute 5 exSerial1 := by
  constructor
  · exact (next_inspects_previous_stage 5 exNoOp (.parallel false [.ret none])
      (by decide) (by decide)).1 ⟨_, rfl⟩
  · exact (next_inspects_previous_stage 5 exSerial1 (.serial (.ret none))
      (by decide) (by decide)).2 (fun ps h => Stage.noConfusion h)

/-- C2: if the cursor is below the number of stages, Chain.Execute
increments the cursor by one and then runs the stage that occupied the
pre-increment position, returning that stage's result (its error, if
any) verbatim; otherwise Execute is a no-op that succeeds and leaves the
state unchanged. -/
theorem execute_advances_cursor (fuel : Nat) (st : ChainSt) (stg : Stage) :
    (st.filters.get? st.pos = some stg →
      ChainSt.Execute (fuel + 1) st =
        Stage.Execute fuel stg st.pos { st with pos := st.pos + 1 }) ∧
    (st.filters.length ≤ st.pos → ChainSt.Execute (fuel + 1) st = .ok none st) := by
  constructor
  · intro hget
    simp only [ChainSt.Execute, hget]
    cases hr : Stage.Execute fuel stg st.pos { st with pos := st.pos + 1 } with
    | crash => rfl
    | out => rfl
    | ok e st' => cases e <;> rfl
  · intro hlen
    have hnone : st.filters.get? st.pos = none := List.get?_eq_none.mpr hlen
    simp only [ChainSt.Execute, hnone]

/-- C2 witness: Execute on `exPar` runs the parallel stage at position 0
with the cursor already at 1, and Execute on an exhausted chain is a
no-op. -/
theorem execute_advances_cursor_witness :
    ChainSt.Execute 32 exPar =
      Stage.Execute 31 (.parallel false [incrNext, incrNext, incrNext]) 0 exParMid ∧
    ChainSt.Execute 6 New = .ok none New := by
  constructor
  · exact (execute_advances_cursor 31 exPar
      (.parallel false [incrNext, incrNext, incrNext])).1 (by decide)
  · exact (execute_advances_cursor 5 New (.serial (.ret none))).2 (by decide)

/-- C10: a serial stage is transparent: its Execute returns exactly the
wrapped filter's result, with no continuation and no state change of its
own; in particular a serial stage whose filter fails with message
"filter execution failed" returns that exact error. -/
theorem serial_stage_transparent (fuel : Nat) (p : Prog) (idx : Nat) (st : ChainSt) :
    Stage.Execute (fuel + 1) (.serial p) idx st = Prog.Execute fuel p st ∧
    Stage.Execute 5 (.serial (.ret (some "filter execution failed"))) 0 New =
      .ok (some "filter execution failed") New := by
  constructor
  · cases hr : Prog.Execute fuel p st with
    | crash => simp only [Stage.Execute, hr]
    | out => simp only [Stage.Execute, hr]
    | ok e st' => cases e <;> simp only [Stage.Execute, hr]
  · decide

/-- C3: when at least one branch of a parallel stage fails (in the
serialised schedule), the stage's Execute returns exactly the first
error with the joint state of all branches — so every launched branch
still ran to completion, the stage's own slot (hence its done flag) is
untouched, and no continuation is requested; and a failing branch does
not stop the remaining branches: the first error is kept, later results
are discarded, but the later branches' effects still happen. -/
theorem parallel_stage_error (fuel : Nat) (st : ChainSt) :
    (∀ d ps idx e st', idx < st.pos →
      Prog.ExecuteAll fuel ps st = .ok (some e) st' →
      Stage.Execute (fuel + 1) (.parallel d ps) idx st = .ok (some e) st' ∧
      st'.filters.get? idx = st.filters.get? idx) ∧
    (∀ p rest e₁ st₁ e₂ st₂,
      Prog.Execute fuel p st = .ok (some e₁) st₁ →
      Prog.ExecuteAll fuel rest st₁ = .ok e₂ st₂ →
      Prog.ExecuteAll (fuel + 1) (p :: rest) st = .ok (some e₁) st₂) := by
  constructor
  · intro d ps idx e st' hidx hrun
    constructor
    · simp only [Stage.Execute, hrun]
    · exact ((evolve_main fuel).2.1 ps st (some e) st' hrun).2.2.2 idx hidx
  · intro p rest e₁ st₁ e₂ st₂ h₁ h₂
    simp only [Prog.ExecuteAll, h₁, h₂]
    rfl

/-- C3 witness: the library's three-branch error example — branch 2
fails, branches 1 and 3 still leave their markers, the flag stays false,
the first (only) error is returned. -/
theorem parallel_stage_error_witness :
    Stage.Execute 11 (.parallel false [branchOk1, branchErr, branchOk3]) 0 exErr =
      .ok (some "filter execution failed") exErrFinal ∧
    exErrFinal.filters.get? 0 = exErr.filters.get? 0 ∧
    Prog.ExecuteAll 11 [branchErr, branchOk3] exErr =
      .ok (some "filter execution failed") exErrTail := by
  refine ⟨?_, ?_, ?_⟩
  · exact ((parallel_stage_error 10 exErr).1 false [branchOk1, branchErr, branchOk3] 0
      "filter execution failed" exErrFinal (by decide) (by decide)).1
  · exact ((parallel_stage_error 10 exErr).1 false [branchOk1, branchErr, branchOk3] 0
      "filter execution failed" exErrFinal (by decide) (by decide)).2
  · exact (parallel_stage_error 10 exErr).2 branchErr [branchOk3]
      "filter execution failed" exErr none exErrTail (by decide) (by decide)

/-- C4: when every branch of a parallel stage succeeds, the stage's
Execute sets its done flag to true and then issues the (single) chain
continuation, Chain.Next, on the flag-set state; concretely, the
library's three-counter example ends with counter 3, no error, and the
flag true. -/
theorem parallel_stage_success :
    (∀ fuel d ps idx st st', Prog.ExecuteAll fuel ps st = .ok none st' →
      Stage.Execute (fuel + 1) (.parallel d ps) idx st =
        ChainSt.Next fuel (st'.setDone idx)) ∧
    ChainSt.Execute 32 exPar = .ok none exParFinal ∧
    exParFinal.store.Get "counter" = some (.nat 3) ∧
    exParFinal.filters.get? 0 = some (.parallel true [incrNext, incrNext, incrNext]) := by
  refine ⟨?_, by decide, by decide, by decide⟩
  intro fuel d ps idx st st' hrun
  simp only [Stage.Execute, hrun]

/-- C4 witness: the three-counter group's Execute is exactly "flip the
flag, then Next" on the post-branch state. -/
theorem parallel_stage_success_witness :
    Stage.Execute 31 (.parallel false [incrNext, incrNext, incrNext]) 0 exParMid =
      ChainSt.Next 30 (exParBranches.setDone 0) :=
  parallel_stage_success.1 30 false [incrNext, incrNext, incrNext] 0 exParMid
    exParBranches (by decide)

/-- C5: continuation protocol of a parallel group — every Next issued
while the group's done flag is still false is a no-op that leaves the
whole state (in particular the cursor) unchanged; once the flag is true,
Next is exactly Execute; concretely, with a marker stage after the
group, the marker runs exactly once (its counter is 1) and the cursor
ends at 2, showing exactly one advancing Execute occurred for the
group, the one issued by its join logic. -/
theorem parallel_continuation_protocol :
    (∀ fuel st ps, 1 ≤ st.pos →
      st.filters.get? (st.pos - 1) = some (.parallel false ps) →
      ChainSt.Next (fuel + 1) st = .ok none st) ∧
    (∀ fuel st ps, 1 ≤ st.pos →
      st.filters.get? (st.pos - 1) = some (.parallel true ps) →
      ChainSt.Next (fuel + 1) st = ChainSt.Execute fuel st) ∧
    ChainSt.Execute 32 exPar2 = .ok none exPar2Final ∧
    exPar2Final.store.Get "advanced" = some (.nat 1) ∧
    exPar2Final.pos = 2 := by
  refine ⟨?_, ?_, by decide, by decide, by decide⟩
  · intro fuel st ps h1 hget
    simp only [ChainSt.Next, hget, if_pos h1, Bool.false_eq_true, if_false]
  · intro fuel st ps h1 hget
    simp only [ChainSt.Next, hget, if_pos h1, if_true]

/-- C5 witness: a branch's Next on the still-incomplete group is a
no-op; the join's Next on the flag-set state delegates to Execute. -/
theorem parallel_continuation_protocol_witness :
    ChainSt.Next 8 exParMid = .ok none exParMid ∧
    ChainSt.Next 8 (exParBranches.setDone 0) =
      ChainSt.Execute 7 (exParBranches.setDone 0) := by
  constructor
  · exact parallel_continuation_protocol.1 7 exParMid [incrNext, incrNext, incrNext]
      (by decide) (by decide)
  · exact parallel_continuation_protocol.2.1 7 (exParBranches.setDone 0)
      [incrNext, incrNext, incrNext] (by decide) (by decide)

/-- C6: run invariants — a freshly constructed chain has cursor 0, zero
stages and an empty paired store; across any Execute call the cursor is
monotone and stays within the stage count; an Execute that finds a stage
advances the cursor by exactly one before running it, and never advances
when the cursor has reached the length; and a parallel stage's done flag
is write-once, transitioning only from false to true with the same
filters. -/
theorem chain_invariants :
    (New.pos = 0 ∧ New.filters = [] ∧ New.store.data = []) ∧
    (∀ fuel st e st', ChainSt.Execute fuel st = .ok e st' →
      st.pos ≤ st'.pos ∧
      (st.pos ≤ st.filters.length → st'.pos ≤ st'.filters.length)) ∧
    (∀ fuel st stg, st.filters.get? st.pos = some stg →
      ChainSt.Execute (fuel + 1) st =
        Stage.Execute fuel stg st.pos { st with pos := st.pos + 1 }) ∧
    (∀ fuel st, st.filters.length ≤ st.pos →
      ChainSt.Execute (fuel + 1) st = .ok none st) ∧
    (∀ fuel st e st' i ps, ChainSt.Execute fuel st = .ok e st' →
      st.filters.get? i = some (.parallel true ps) →
      st'.filters.get? i = some (.parallel true ps)) ∧
    (∀ fuel st e st' i stg', ChainSt.Execute fuel st = .ok e st' →
      st'.filters.get? i = some stg' →
      st.filters.get? i = some stg' ∨
        ∃ ps, st.filters.get? i = some (.parallel false ps) ∧
          stg' = .parallel true ps) := by
  refine ⟨⟨rfl, rfl, rfl⟩, ?_, ?_, ?_, ?_, ?_⟩
  · intro fuel st e st' h
    have hev := (evolve_main fuel).2.2.2.1 st e st' h
    exact ⟨hev.2.1, hev.2.2.1⟩
  · intro fuel st stg hget
    simp only [ChainSt.Execute, hget]
    cases hr : Stage.Execute fuel stg st.pos { st with pos := st.pos + 1 } with
    | crash => rfl
    | out => rfl
    | ok e st' => cases e <;> rfl
  · intro fuel st hlen
    have hnone : st.filters.get? st.pos = none := List.get?_eq_none.mpr hlen
    simp only [ChainSt.Execute, hnone]
  · intro fuel st e st' i ps h hget
    have hev := (evolve_main fuel).2.2.2.1 st e st' h
    obtain ⟨b, hb, hle⟩ := forall₂_get?_left hev.1 hget
    rcases hle with rfl | ⟨qs, heq, _⟩
    · exact hb
    · injection heq with hflag _
      exact Bool.noConfusion hflag
  · intro fuel st e st' i stg' h hget
    have hev := (evolve_main fuel).2.2.2.1 st e st' h
    obtain ⟨a, ha, hle⟩ := forall₂_get?_right hev.1 hget
    rcases hle with rfl | ⟨ps, ha₂, hb₂⟩
    · exact Or.inl ha
    · exact Or.inr ⟨ps, ha₂ ▸ ha, hb₂⟩

/-- C6 witness: on the concrete three-counter run the cursor moves from
0 to 1 and stays within the single-stage bound. -/
theorem chain_invariants_witness :
    exPar.pos ≤ exParFinal.pos ∧ exParFinal.pos ≤ exParFinal.filters.length := by
  have h := chain_invariants.2.1 32 exPar none exParFinal (by decide)
  exact ⟨h.1, h.2 (by decide)⟩

/-- C7: Chain.Next has the unstated precondition cursor ≥ 1 — with
cursor 0 (or cursor beyond length + 1) the slice index cursor - 1 is out
of range and Go panics (Res.crash); the indexing is safe exactly when
1 ≤ cursor ≤ length, in which case no panic can arise anywhere in the
call. -/
theorem next_unstated_precondition (fuel : Nat) (st : ChainSt) :
    (st.pos = 0 → ChainSt.Next (fuel + 1) st = .crash) ∧
    (st.filters.length + 1 ≤ st.pos → ChainSt.Next (fuel + 1) st = .crash) ∧
    (1 ≤ st.pos → st.pos ≤ st.filters.length →
      ChainSt.Next (fuel + 1) st ≠ .crash) := by
  refine ⟨?_, ?_, ?_⟩
  · intro h0
    simp only [ChainSt.Next, h0]
    rw [if_neg (by omega)]
  · intro hgt
    have h1 : 1 ≤ st.pos := by omega
    have hnone : st.filters.get? (st.pos - 1) = none :=
      List.get?_eq_none.mpr (by omega)
    simp only [ChainSt.Next, hnone, if_pos h1]
  · intro h1 h2
    exact (nopanic_main (fuel + 1)).2.2.2.2 st h1 h2

/-- C7 witness: Next on a chain with cursor 0 panics; Next on the same
chain mid-run does not. -/
theorem next_unstated_precondition_witness :
    ChainSt.Next 6 exFresh0 = .crash ∧ ChainSt.Next 6 exSerial1 ≠ .crash := by
  constructor
  · exact (next_unstated_precondition 5 exFresh0).1 rfl
  · exact (next_unstated_precondition 5 exSerial1).2.2 (by decide) (by decide)

/-- C8: AddParallelFilters with zero filters returns the chain
unchanged; with one filter it appends exactly one serial stage wrapping
it; with two or more it appends exactly one parallel stage wrapping all
of them in order, done flag initially false. -/
theorem addParallelFilters_spec (chain : ChainSt) (f g : Prog) (rest : List Prog) :
    chain.AddParallelFilters [] = chain ∧
    chain.AddParallelFilters [f] =
      { chain with filters := chain.filters ++ [.serial f] } ∧
    chain.AddParallelFilters (f :: g :: rest) =
      { chain with filters := chain.filters ++ [.parallel false (f :: g :: rest)] } :=
  ⟨rfl, rfl, rfl⟩

theorem find?_filter_ne {α : Type} (k k' : String) (hne : k' ≠ k) :
    ∀ l : List (String × α),
      List.find? (fun p => p.1 == k') (l.filter (fun p => p.1 != k)) =
        List.find? (fun p => p.1 == k') l := by
  intro l
  induction l with
  | nil => rfl
  | cons a t ih =>
    by_cases hak : a.1 = k
    · rw [List.filter_cons_of_neg (by simp [hak]),
        List.find?_cons_of_neg _ (by simp [hak]; exact fun hh => hne hh.symm)]
      exact ih
    · rw [List.filter_cons_of_pos (by simp [hak])]
      by_cases hak' : a.1 = k'
      · rw [List.find?_cons_of_pos _ (by simp [hak']),
          List.find?_cons_of_pos _ (by simp [hak'])]
      · rw [List.find?_cons_of_neg _ (by simp [hak']),
          List.find?_cons_of_neg _ (by simp [hak'])]
        exact ih

/-- C9: Put is a total unconditional upsert — Get of the key just Put
returns that value (Go's `(v, true)`), Put leaves every other key's
lookup unchanged, and Get of a key with no entry in the store returns
none (Go's `(_, false)`). -/
theorem store_put_get {α : Type} (s : Store α) (k : String) (v : α) :
    (s.Put k v).Get k = some v ∧
    (∀ k', k' ≠ k → (s.Put k v).Get k' = s.Get k') ∧
    (∀ k₀, (∀ w, (k₀, w) ∉ s.data) → s.Get k₀ = none) := by
  refine ⟨?_, ?_, ?_⟩
  · simp [Store.Get, Store.Put]
  · intro k' hne
    simp only [Store.Get, Store.Put]
    rw [List.find?_cons_of_neg _ (by simp; exact fun hh => hne hh.symm),
      find?_filter_ne k k' hne s.data]
  · intro k₀ habs
    simp only [Store.Get, Option.map_eq_none']
    rw [List.find?_eq_none]
    intro x hx hpx
    obtain ⟨x1, x2⟩ := x
    simp only [beq_iff_eq] at hpx
    subst hpx
    exact habs x2 hx

/-- C9 witness: Put then Get on a concrete store. -/
theorem store_put_get_witness :
    (Store.Put (⟨[("a", 1)]⟩ : Store Nat) "b" 2).Get "b" = some 2 ∧
    (Store.Put (⟨[("a", 1)]⟩ : Store Nat) "b" 2).Get "a" =
      Store.Get (⟨[("a", 1)]⟩ : Store Nat) "a" ∧
    Store.Get (⟨[("a", 1)]⟩ : Store Nat) "c" = none := by
  have h := store_put_get (⟨[("a", (1 : Nat))]⟩ : Store Nat) "b" 2
  refine ⟨h.1, h.2.1 "a" (by decide), h.2.2 "c" ?_⟩
  intro w hw
  simp only [List.mem_singleton, Prod.mk.injEq] at hw
  exact absurd hw.1 (by decide)

end FilterChain
